import Mathlib

/-!
# Verification of the `Table` CSV codec and dataset (src/src/index.ts)

Shallow embedding of the TypeScript `Table` class: the per-field CSV encoder
(`convertToproperStr`), the serializer (`Table.toString`), the parser
(`parseColumn` / `parseRow` / the body of `Table.getDataFrom`), the shape
validation of the `data` setter and the constructor, and a small store-based
model of `cloneArray` as used by the `columns` / `data` getters.

Strings are modelled as `List Char`.  The JavaScript parser's `while(true)`
loop in `parseRow` does not terminate on some inputs (when the character after
a quoted field's closing quote is neither a comma, a newline, nor end of
text, the loop repeats without advancing), so `parseRow` is embedded with an
explicit fuel parameter; exhausting every fuel corresponds to divergence of
the source program.
-/

set_option maxRecDepth 10000

namespace TableTs

/-- Error raised by the `data` setter and by `getDataFrom`
(`Table.ErrorTypes.InconsistentRowLengths`): carries the 1-based row number,
the row's actual length, and the expected length (the column count), exactly
the three numbers interpolated into the error description. -/
inductive TableError where
  | inconsistentRowLengths (rowNumber actual expected : Nat)
deriving DecidableEq, Repr

/-! ## The per-field encoder (`convertToproperStr`, lines 62-85) -/

/-- Inner loop of `convertToproperStr`: every double-quote character is
emitted doubled, every other character verbatim (the `switch` in the loop;
the comma/newline cases fall through to `default`, so those characters are
also copied). -/
def escapeQuotes : List Char → List Char
  | [] => []
  | c :: rest => if c = '"' then '"' :: '"' :: escapeQuotes rest else c :: escapeQuotes rest

/-- Models `str[0] == "\""` (for the empty string, `str[0]` is `undefined`, which is
not equal to the quote character). -/
def startsWithQuote : List Char → Bool
  | [] => false
  | c :: _ => c == '"'

/-- The loop of `convertToproperStr` sets `needsQuotes` when it meets a comma
or a newline character. -/
def containsCommaOrNewline (s : List Char) : Bool :=
  s.any (fun c => c == ',' || c == '\n')

/-- Embedding of `convertToproperStr` (lines 62-85): `needsQuotes` starts as
`str[0] == "\""` and becomes true when the loop meets a comma or a newline;
`properString` is a double quote followed by the input with every double
quote doubled; the function returns `properString + "\""` when `needsQuotes`
holds and the input verbatim otherwise. -/
def convertToproperStr (s : List Char) : List Char :=
  if startsWithQuote s || containsCommaOrNewline s then
    '"' :: (escapeQuotes s ++ ['"'])
  else
    s

/-! ## The serializer (`Table.toString`, lines 61-103) -/

/-- One row of `Table.toString`: the encoded fields joined with commas
(`str += (j != 0 ? "," : "") + convertToproperStr(...)`). -/
def serializeRow : List (List Char) → List Char
  | [] => []
  | [f] => convertToproperStr f
  | f :: g :: t => convertToproperStr f ++ ',' :: serializeRow (g :: t)

/-- The data-row part of `Table.toString`: encoded rows joined with newlines
(`if(i != 0) str += "\n"`). -/
def serializeData : List (List (List Char)) → List Char
  | [] => []
  | [r] => serializeRow r
  | r :: s :: t => serializeRow r ++ '\n' :: serializeData (s :: t)

/-- Embedding of `Table.toString` (lines 87-103): the encoded header row; if there is no
data the function returns early, otherwise a newline and the encoded data
rows follow. -/
def tableToString (columns : List (List Char)) (data : List (List (List Char))) : List Char :=
  if data = [] then serializeRow columns
  else serializeRow columns ++ '\n' :: serializeData data

/-! ## The parser (`parseColumn` / `parseRow` / `getDataFrom`, lines 165-227)

`parseColumn(data, index)` scans the string `data` from position `index` and
returns the decoded field together with `endIndex`.  Positions into the
string are represented by the suffix starting there, so the embedding returns
the decoded field together with the suffix starting at `endIndex`; the
quoted-field loop's bound `i < data.length - 1` (the final character of the
whole string is never examined) becomes the one-element base case. -/

/-- The unquoted branch of `parseColumn` (lines 181-192): the field ends at
the first comma or newline (`endIndex` at the separator) or at end of text. -/
def unquotedScan : List Char → List Char × List Char
  | [] => ([], [])
  | c :: rest =>
    if c = ',' || c = '\n' then ([], c :: rest)
    else
      let p := unquotedScan rest
      (c :: p.1, p.2)

/-- The quoted branch of `parseColumn` (lines 168-180), applied to the suffix
after the opening quote.  The loop runs while `i < data.length - 1`, so a
final character is never examined (one-element base case, `endIndex =
data.length`); a doubled quote emits one quote and skips both; an unescaped
quote ends the field with `endIndex` just after it; any other character is
copied. -/
def quotedScan : List Char → List Char × List Char
  | [] => ([], [])
  | [_] => ([], [])
  | c :: c2 :: rest =>
    if c = '"' then
      if c2 = '"' then
        let p := quotedScan rest
        ('"' :: p.1, p.2)
      else ([], c2 :: rest)
    else
      let p := quotedScan (c2 :: rest)
      (c :: p.1, p.2)

/-- Embedding of `parseColumn` (lines 165-193): `insideQuotes` is `data[index] == "\""`
(false at end of text, where `data[index]` is `undefined`). -/
def parseColumn : List Char → List Char × List Char
  | [] => ([], [])
  | c :: rest => if c = '"' then quotedScan rest else unquotedScan (c :: rest)

/-- Embedding of `parseRow` (lines 194-209), with explicit fuel for the `while(true)`
loop.  A comma after the field pushes it and continues after the comma; end
of text or a newline pushes the field only when it is non-empty and returns
(`endIndex` at the newline); any other character matches no `case` of the
`switch`, so the loop repeats with `index` unchanged — the source diverges,
which the embedding models by spending fuel without progress.  `none` means
the fuel ran out. -/
def parseRowF : Nat → List (List Char) → List Char → Option (List (List Char) × List Char)
  | 0, _, _ => none
  | fuel + 1, acc, l =>
    let pc := parseColumn l
    match pc.2 with
    | [] => some (acc ++ (if pc.1 = [] then [] else [pc.1]), [])
    | c :: rest2 =>
      if c = ',' then parseRowF fuel (acc ++ [pc.1]) rest2
      else if c = '\n' then some (acc ++ (if pc.1 = [] then [] else [pc.1]), c :: rest2)
      else parseRowF fuel acc l

/-- Runs `parseRowF` with the fuel that is always sufficient when the source
terminates: every iteration that takes the comma branch consumes at least
one character, so at most `l.length + 1` iterations run unless the loop is
stuck (in which case it is stuck forever and the source diverges). -/
def parseRow (l : List Char) : Option (List (List Char) × List Char) :=
  parseRowF (l.length + 1) [] l

/-- Result of the row-collection loop of `getDataFrom`. -/
inductive RowsResult where
  | diverge
  | fail (e : TableError)
  | ok (rows : List (List (List Char)))
deriving DecidableEq, Repr

/-- Embedding of the `while(i != content.length)` loop of `getDataFrom` (lines 216-224),
with fuel: while the suffix at `i` is non-empty, skip the newline at `i`
(`parseRow(content, i + 1)`), parse a row, reject with
`InconsistentRowLengths` (row number `data.length + 1`, the row's length,
the column count) when the row's length differs from the column count, and
otherwise push the row.  Every iteration consumes at least the skipped
character, so the initial fuel `length + 1` is sufficient; `diverge` can
only arise from a stuck `parseRow`. -/
def parseRowsF : Nat → Nat → List (List (List Char)) → List Char → RowsResult
  | 0, _, _, _ => RowsResult.diverge
  | _ + 1, _, acc, [] => RowsResult.ok acc
  | fuel + 1, ncols, acc, _ :: rest1 =>
    match parseRow rest1 with
    | none => RowsResult.diverge
    | some (row, rest2) =>
      if row.length ≠ ncols then
        RowsResult.fail (TableError.inconsistentRowLengths (acc.length + 1) row.length ncols)
      else parseRowsF fuel ncols (acc ++ [row]) rest2

/-- Overall result of the parsing part of `getDataFrom`. -/
inductive ParseResult where
  | diverge
  | fail (e : TableError)
  | ok (columns : List (List Char)) (rows : List (List (List Char)))
deriving DecidableEq, Repr

/-- The parsing logic of `Table.getDataFrom` (lines 210-227), applied to the
file content: the first `parseRow` yields the column names, then the loop
collects the data rows; on success `this._columns` and `this._data` receive
the results. -/
def getDataFrom (content : List Char) : ParseResult :=
  match parseRow content with
  | none => ParseResult.diverge
  | some (columns, rest) =>
    match parseRowsF (rest.length + 1) columns.length [] rest with
    | RowsResult.diverge => ParseResult.diverge
    | RowsResult.fail e => ParseResult.fail e
    | RowsResult.ok rows => ParseResult.ok columns rows

/-! ## The dataset (`Table` class state, constructor, `data` setter) -/

/-- The private backing fields `_columns` and `_data` of a `Table`. -/
structure Table where
  columns : List (List Char)
  data : List (List (List Char))
deriving DecidableEq, Repr

/-- The validation loop of the `data` setter (lines 244-254): find the first
row (0-based loop index `i`) whose length differs from `_columns.length` and
throw `InconsistentRowLengths` with row number `i + 1`, the row's length and
the column count. -/
def checkRows (ncols : Nat) : Nat → List (List (List Char)) → Option TableError
  | _, [] => none
  | i, r :: rest =>
    if r.length ≠ ncols then some (TableError.inconsistentRowLengths (i + 1) r.length ncols)
    else checkRows ncols (i + 1) rest

/-- The `data` setter (lines 244-254): the loop throws on the first bad row
(before `this._data = data` runs, so the backing fields keep their previous
values); otherwise `this._data = data` replaces all rows. -/
def setData (t : Table) (rows : List (List (List Char))) : Option TableError × Table :=
  match checkRows t.columns.length 0 rows with
  | some e => (some e, t)
  | none => (none, { t with data := rows })

/-- The array overload of the constructor (lines 47-55): `this.columns =
columns` (the private setter stores them unvalidated), then `this.data =
data` runs the setter above; a thrown error aborts construction. -/
def tableNew (columns : List (List Char)) (data : List (List (List Char))) :
    Except TableError Table :=
  match setData { columns := columns, data := [] } data with
  | (some e, _) => Except.error e
  | (none, t) => Except.ok t

/-- Outcome of an operation on an existing table. -/
inductive OpResult where
  | success
  | failure (e : TableError)
  | divergence
deriving DecidableEq, Repr

/-- The state effect of `getDataFrom` on a table (lines 210-227): the parse
runs to completion on local variables; only after the whole content is
validated do `this._columns = columns` and `this._data = data` run, so a
rejection (and, vacuously, divergence) leaves the backing fields untouched. -/
def tableGetDataFrom (t : Table) (content : List Char) : OpResult × Table :=
  match getDataFrom content with
  | ParseResult.diverge => (OpResult.divergence, t)
  | ParseResult.fail e => (OpResult.failure e, t)
  | ParseResult.ok columns rows => (OpResult.success, { columns := columns, data := rows })

/-! ## Store model of `cloneArray` and the getters (lines 9-19, 241-259)

JavaScript arrays are heap references; mutating an array reached through one
reference is visible through every alias.  The store model has numbered
cells: `strCells` hold arrays of strings (the shape of `_columns` and of one
row), `rowCells` hold arrays of references to string-array cells (the shape
of `_data`).  `cloneArray` is embedded at the two shapes it is applied to:
on an `Array<string>` its elements are not arrays and are pushed as they
are; on an `Array<Array<string>>` every element is an array and is cloned
recursively, so every row gets a fresh cell. -/

/-- The store: cell `i` of `strCells` is a JavaScript `Array<string>`, cell
`i` of `rowCells` is a JavaScript `Array<Array<string>>` whose elements are
references into `strCells`.  Allocation appends a cell. -/
structure Store where
  strCells : List (List (List Char))
  rowCells : List (List Nat)
deriving DecidableEq, Repr

/-- The references held by a table object: `_columns` is a string-array cell,
`_data` is a row-array cell. -/
structure TableRefs where
  columnsRef : Nat
  dataRef : Nat
deriving DecidableEq, Repr

/-- Model of `cloneArray` applied to an `Array<string>` (the `columns` getter, line
258): no element is an array, so each is pushed verbatim into a fresh
array.  Returns the new store and the fresh reference. -/
def cloneStrArray (st : Store) (r : Nat) : Store × Nat :=
  ({ st with strCells := st.strCells ++ [st.strCells.getD r []] }, st.strCells.length)

/-- Model of `cloneArray` applied to an `Array<Array<string>>` (the `data` getter,
line 242): every element is an array, so it is cloned recursively — each row
gets a fresh string-array cell — and the fresh row cell holds the fresh
references.  Returns the new store and the fresh row-array reference. -/
def cloneRowArray (st : Store) (r : Nat) : Store × Nat :=
  let rows := st.rowCells.getD r []
  let clonedRows := rows.map (fun rr => st.strCells.getD rr [])
  let base := st.strCells.length
  ({ strCells := st.strCells ++ clonedRows,
     rowCells := st.rowCells ++ [(List.range rows.length).map (· + base)] },
   st.rowCells.length)

/-- In-place mutation of a string-array cell (what external code can do to
an `Array<string>` it holds a reference to). -/
def setStrCell (st : Store) (i : Nat) (v : List (List Char)) : Store :=
  { st with strCells := st.strCells.set i v }

/-- In-place mutation of a row-array cell. -/
def setRowCell (st : Store) (i : Nat) (v : List Nat) : Store :=
  { st with rowCells := st.rowCells.set i v }

/-- The value of the table's column set as read through `_columns`. -/
def readColumns (st : Store) (t : TableRefs) : List (List Char) :=
  st.strCells.getD t.columnsRef []

/-- The value of the table's row data as read through `_data` (each row
dereferenced). -/
def readData (st : Store) (t : TableRefs) : List (List (List Char)) :=
  (st.rowCells.getD t.dataRef []).map (fun rr => st.strCells.getD rr [])

/-- A table's references are valid in the store and every row reference of
`_data` points into `strCells`. -/
def WfRefs (st : Store) (t : TableRefs) : Prop :=
  t.columnsRef < st.strCells.length ∧ t.dataRef < st.rowCells.length ∧
    ∀ rr ∈ st.rowCells.getD t.dataRef [], rr < st.strCells.length

instance (st : Store) (t : TableRefs) : Decidable (WfRefs st t) := by
  unfold WfRefs; infer_instance

/-! ## Helper notions used in the statements -/

/-- Modelled from the spec: "a field is wrapped in double quotes if, and
only if, it contains a comma, a newline, or begins with a double-quote
character" — the wrapping condition in the spec's own words, to be compared
with the condition computed by `convertToproperStr`. -/
def specNeedsQuotes (s : List Char) : Bool :=
  s.any (· == ',') || s.any (· == '\n') || startsWithQuote s

/-- The field sequence `parseRow` actually produces for a serialized row:
the row itself, except that a last field decoding to the empty string is
dropped. -/
def trimRow (row : List (List Char)) : List (List Char) :=
  if row.getLast? = some [] then row.dropLast else row

/-- The suffix after a field of the header or of a row starts with a comma
or a newline, or is empty. -/
def SepStart (rest : List Char) : Prop :=
  rest = [] ∨ (∃ r2, rest = ',' :: r2) ∨ (∃ r2, rest = '\n' :: r2)

/-- The suffix after a whole serialized row starts with a newline or is
empty. -/
def NlStart (rest : List Char) : Prop :=
  rest = [] ∨ ∃ r2, rest = '\n' :: r2

/-! ## Field-level lemmas: `parseColumn` inverts `convertToproperStr` -/

theorem unquotedScan_sep (c : Char) (hc : c = ',' ∨ c = '\n') (L : List Char) :
    unquotedScan (c :: L) = ([], c :: L) := by
  rcases hc with h | h <;> subst h <;> simp [unquotedScan]

theorem unquotedScan_step (c : Char) (hc : ¬(c = ',' ∨ c = '\n')) (L : List Char) :
    unquotedScan (c :: L) = (c :: (unquotedScan L).1, (unquotedScan L).2) := by
  have h1 : ¬c = ',' := fun h => hc (Or.inl h)
  have h2 : ¬c = '\n' := fun h => hc (Or.inr h)
  simp [unquotedScan, h1, h2]

theorem unquotedScan_exact (f : List Char) (rest : List Char)
    (hf : ∀ c ∈ f, ¬(c = ',' ∨ c = '\n'))
    (hrest : SepStart rest) :
    unquotedScan (f ++ rest) = (f, rest) := by
  induction f with
  | nil =>
    rcases hrest with h | ⟨r2, h⟩ | ⟨r2, h⟩ <;> subst h
    · rfl
    · exact unquotedScan_sep ',' (Or.inl rfl) r2
    · exact unquotedScan_sep '\n' (Or.inr rfl) r2
  | cons c t ih =>
    have hc := hf c (by simp)
    have ht : ∀ x ∈ t, ¬(x = ',' ∨ x = '\n') := fun x hx => hf x (by simp [hx])
    rw [List.cons_append, unquotedScan_step c hc, ih ht]

theorem quotedScan_pair (L : List Char) :
    quotedScan ('"' :: '"' :: L) = ('"' :: (quotedScan L).1, (quotedScan L).2) := by
  simp [quotedScan]

theorem quotedScan_close (c : Char) (hc : c ≠ '"') (L : List Char) :
    quotedScan ('"' :: c :: L) = ([], c :: L) := by
  simp [quotedScan, hc]

theorem quotedScan_copy (c : Char) (hc : c ≠ '"') (b : Char) (L : List Char) :
    quotedScan (c :: b :: L) = (c :: (quotedScan (b :: L)).1, (quotedScan (b :: L)).2) := by
  simp [quotedScan, hc]

theorem quotedScan_exact (f : List Char) (rest : List Char)
    (hrest : rest = [] ∨ ∃ c r2, rest = c :: r2 ∧ c ≠ '"') :
    quotedScan (escapeQuotes f ++ '"' :: rest) = (f, rest) := by
  induction f with
  | nil =>
    rcases hrest with h | ⟨c, r2, h, hc⟩ <;> subst h
    · rfl
    · show quotedScan ('"' :: c :: r2) = ([], c :: r2)
      exact quotedScan_close c hc r2
  | cons a t ih =>
    by_cases ha : a = '"'
    · subst ha
      show quotedScan ('"' :: '"' :: (escapeQuotes t ++ '"' :: rest)) = _
      rw [quotedScan_pair, ih]
    · obtain ⟨b, L, hL⟩ : ∃ b L, escapeQuotes t ++ '"' :: rest = b :: L := by
        cases h : escapeQuotes t with
        | nil => exact ⟨'"', rest, by simp⟩
        | cons x xs => exact ⟨x, xs ++ '"' :: rest, by simp⟩
      have hesc : escapeQuotes (a :: t) = a :: escapeQuotes t := by
        simp [escapeQuotes, ha]
      rw [hesc, List.cons_append, hL, quotedScan_copy a ha, ← hL, ih]

theorem parseColumn_encode (f : List Char) (rest : List Char)
    (hrest : SepStart rest) :
    parseColumn (convertToproperStr f ++ rest) = (f, rest) := by
  unfold convertToproperStr
  by_cases h : (startsWithQuote f || containsCommaOrNewline f) = true
  · rw [if_pos h]
    have hassoc : ('"' :: (escapeQuotes f ++ ['"'])) ++ rest
        = '"' :: (escapeQuotes f ++ '"' :: rest) := by simp
    rw [hassoc]
    show quotedScan (escapeQuotes f ++ '"' :: rest) = (f, rest)
    apply quotedScan_exact
    rcases hrest with hr | ⟨r2, hr⟩ | ⟨r2, hr⟩ <;> subst hr
    · exact Or.inl rfl
    · exact Or.inr ⟨',', r2, rfl, by decide⟩
    · exact Or.inr ⟨'\n', r2, rfl, by decide⟩
  · rw [if_neg h]
    have hns : startsWithQuote f = false := by
      cases hq : startsWithQuote f
      · rfl
      · exact absurd (by rw [hq]; rfl) h
    have hcc : containsCommaOrNewline f = false := by
      cases hq : containsCommaOrNewline f
      · rfl
      · exact absurd (by rw [hq, Bool.or_true]) h
    have hf : ∀ c ∈ f, ¬(c = ',' ∨ c = '\n') := by
      intro c hc
      have := List.any_eq_false.mp hcc c hc
      intro hor
      rcases hor with h1 | h1 <;> subst h1 <;> simp at this
    cases f with
    | nil =>
      rcases hrest with hr | ⟨r2, hr⟩ | ⟨r2, hr⟩ <;> subst hr <;>
        simp [parseColumn, unquotedScan]
    | cons a t =>
      have ha : a ≠ '"' := by
        intro hq; rw [hq] at hns; simp [startsWithQuote] at hns
      simp only [List.cons_append, parseColumn, if_neg ha]
      exact unquotedScan_exact (a :: t) rest hf hrest

/-! ## Length bounds used to discharge the fuel hypotheses -/

theorem length_le_serializeRow (row : List (List Char)) :
    row.length ≤ (serializeRow row).length + 1 := by
  induction row with
  | nil => simp
  | cons f t ih =>
    cases t with
    | nil => simp [serializeRow]
    | cons g t2 =>
      simp only [serializeRow, List.length_append, List.length_cons] at *
      omega

theorem length_le_serializeData (rows : List (List (List Char))) :
    rows.length ≤ (serializeData rows).length + 1 := by
  induction rows with
  | nil => simp
  | cons r t ih =>
    cases t with
    | nil => simp [serializeData]
    | cons s t2 =>
      simp only [serializeData, List.length_append, List.length_cons] at *
      omega

theorem trimRow_of_getLast (row : List (List Char)) (h : row.getLast? ≠ some []) :
    trimRow row = row := by
  simp [trimRow, h]

theorem trimRow_cons_cons (f g : List Char) (t : List (List Char)) :
    trimRow (f :: g :: t) = f :: trimRow (g :: t) := by
  unfold trimRow
  rw [List.getLast?_cons_cons]
  by_cases h : (g :: t).getLast? = some []
  · rw [if_pos h, if_pos h]
    rfl
  · rw [if_neg h, if_neg h]

/-! ## Row-level lemmas: one `parseRow` iteration per field -/

theorem parseRowF_end (fuel : Nat) (acc : List (List Char)) (l f : List Char)
    (h : parseColumn l = (f, [])) :
    parseRowF (fuel + 1) acc l = some (acc ++ (if f = [] then [] else [f]), []) := by
  simp [parseRowF, h]

theorem parseRowF_comma (fuel : Nat) (acc : List (List Char)) (l f rest2 : List Char)
    (h : parseColumn l = (f, ',' :: rest2)) :
    parseRowF (fuel + 1) acc l = parseRowF fuel (acc ++ [f]) rest2 := by
  simp [parseRowF, h]

theorem parseRowF_newline (fuel : Nat) (acc : List (List Char)) (l f rest2 : List Char)
    (h : parseColumn l = (f, '\n' :: rest2)) :
    parseRowF (fuel + 1) acc l
      = some (acc ++ (if f = [] then [] else [f]), '\n' :: rest2) := by
  simp [parseRowF, h]

theorem parseRowF_stuck (fuel : Nat) (acc : List (List Char)) (l f rest2 : List Char)
    (c : Char) (h : parseColumn l = (f, c :: rest2)) (hc1 : c ≠ ',') (hc2 : c ≠ '\n') :
    parseRowF (fuel + 1) acc l = parseRowF fuel acc l := by
  simp [parseRowF, h, hc1, hc2]

theorem parseRowF_serialize (row : List (List Char)) :
    ∀ (rest : List Char) (acc : List (List Char)) (fuel : Nat),
      NlStart rest → 0 < fuel → row.length ≤ fuel →
      parseRowF fuel acc (serializeRow row ++ rest) = some (acc ++ trimRow row, rest) := by
  induction row with
  | nil =>
    intro rest acc fuel hrest hpos _
    obtain ⟨k, rfl⟩ : ∃ k, fuel = k + 1 := ⟨fuel - 1, by omega⟩
    have htrim : trimRow [] = [] := rfl
    rcases hrest with h | ⟨r2, h⟩ <;> subst h
    · rw [show serializeRow [] ++ ([] : List Char) = [] from rfl,
        parseRowF_end k acc [] [] rfl, htrim]
      simp
    · rw [show serializeRow [] ++ '\n' :: r2 = '\n' :: r2 from rfl,
        parseRowF_newline k acc ('\n' :: r2) [] r2 (by simp [parseColumn, unquotedScan]),
        htrim]
      simp
  | cons f t ih =>
    intro rest acc fuel hrest hpos hlen
    obtain ⟨k, rfl⟩ : ∃ k, fuel = k + 1 := ⟨fuel - 1, by omega⟩
    cases t with
    | nil =>
      have hsep : SepStart rest := by
        rcases hrest with h | ⟨r2, h⟩
        · exact Or.inl h
        · exact Or.inr (Or.inr ⟨r2, h⟩)
      have hpc : parseColumn (convertToproperStr f ++ rest) = (f, rest) :=
        parseColumn_encode f rest hsep
      have hser : serializeRow [f] = convertToproperStr f := rfl
      rcases hrest with h | ⟨r2, h⟩ <;> subst h
      · rw [hser, parseRowF_end k acc _ f hpc]
        by_cases hf : f = []
        · subst hf; simp [trimRow]
        · simp only [if_neg hf]
          rw [trimRow_of_getLast [f] (by simp [List.getLast?]; exact hf)]
      · rw [hser, parseRowF_newline k acc _ f r2 hpc]
        by_cases hf : f = []
        · subst hf; simp [trimRow]
        · simp only [if_neg hf]
          rw [trimRow_of_getLast [f] (by simp [List.getLast?]; exact hf)]
    | cons g t2 =>
      have hser : serializeRow (f :: g :: t2)
          = convertToproperStr f ++ ',' :: serializeRow (g :: t2) := rfl
      have hpc : parseColumn (convertToproperStr f ++ ',' :: (serializeRow (g :: t2) ++ rest))
          = (f, ',' :: (serializeRow (g :: t2) ++ rest)) :=
        parseColumn_encode f _ (Or.inr (Or.inl ⟨_, rfl⟩))
      have hassoc : serializeRow (f :: g :: t2) ++ rest
          = convertToproperStr f ++ ',' :: (serializeRow (g :: t2) ++ rest) := by
        rw [hser]; simp
      rw [hassoc, parseRowF_comma k acc _ f _ hpc,
        ih rest (acc ++ [f]) k hrest (by simp at hlen; omega) (by simp at hlen ⊢; omega),
        trimRow_cons_cons]
      simp

theorem parseRow_serialize (row : List (List Char)) (rest : List Char) (hrest : NlStart rest) :
    parseRow (serializeRow row ++ rest) = some (trimRow row, rest) := by
  have hlen := length_le_serializeRow row
  have := parseRowF_serialize row rest [] ((serializeRow row ++ rest).length + 1) hrest
    (by omega) (by simp only [List.length_append]; omega)
  simpa [parseRow] using this

/-! ## Lemmas about the row-collection loop -/

theorem parseRowsF_nil (fuel : Nat) (ncols : Nat) (acc : List (List (List Char))) :
    parseRowsF (fuel + 1) ncols acc [] = RowsResult.ok acc := rfl

theorem parseRowsF_step_ok (fuel ncols : Nat) (acc : List (List (List Char))) (c : Char)
    (rest1 : List Char) (row : List (List Char)) (rest2 : List Char)
    (h : parseRow rest1 = some (row, rest2)) (hlen : row.length = ncols) :
    parseRowsF (fuel + 1) ncols acc (c :: rest1)
      = parseRowsF fuel ncols (acc ++ [row]) rest2 := by
  simp [parseRowsF, h, hlen]

theorem parseRowsF_step_fail (fuel ncols : Nat) (acc : List (List (List Char))) (c : Char)
    (rest1 : List Char) (row : List (List Char)) (rest2 : List Char)
    (h : parseRow rest1 = some (row, rest2)) (hlen : row.length ≠ ncols) :
    parseRowsF (fuel + 1) ncols acc (c :: rest1)
      = RowsResult.fail (TableError.inconsistentRowLengths (acc.length + 1) row.length ncols) := by
  simp [parseRowsF, h, hlen]

theorem parseRow_nil : parseRow [] = some ([], []) := rfl

theorem parseRowsF_serialize (rows : List (List (List Char))) :
    ∀ (ncols : Nat) (acc : List (List (List Char))) (fuel : Nat),
      rows ≠ [] →
      (∀ r ∈ rows, r.length = ncols ∧ r.getLast? ≠ some []) →
      rows.length < fuel →
      parseRowsF fuel ncols acc ('\n' :: serializeData rows) = RowsResult.ok (acc ++ rows) := by
  induction rows with
  | nil => intro _ _ _ h; exact absurd rfl h
  | cons r t ih =>
    intro ncols acc fuel _ hall hfuel
    obtain ⟨k, rfl⟩ : ∃ k, fuel = k + 1 := ⟨fuel - 1, by omega⟩
    have htrim : trimRow r = r := trimRow_of_getLast r (hall r (by simp)).2
    have hrl : r.length = ncols := (hall r (by simp)).1
    cases t with
    | nil =>
      have hrow : parseRow (serializeRow r) = some (r, []) := by
        have := parseRow_serialize r [] (Or.inl rfl)
        rw [htrim] at this
        simpa using this
      rw [show serializeData [r] = serializeRow r from rfl,
        parseRowsF_step_ok k ncols acc '\n' _ r [] hrow hrl]
      obtain ⟨k2, rfl⟩ : ∃ k2, k = k2 + 1 := ⟨k - 1, by simp at hfuel; omega⟩
      exact parseRowsF_nil k2 ncols (acc ++ [r])
    | cons s t2 =>
      have hrow : parseRow (serializeRow r ++ '\n' :: serializeData (s :: t2))
          = some (r, '\n' :: serializeData (s :: t2)) := by
        have := parseRow_serialize r ('\n' :: serializeData (s :: t2)) (Or.inr ⟨_, rfl⟩)
        rwa [htrim] at this
      rw [show serializeData (r :: s :: t2)
            = serializeRow r ++ '\n' :: serializeData (s :: t2) from rfl,
        parseRowsF_step_ok k ncols acc '\n' _ r _ hrow hrl,
        ih ncols (acc ++ [r]) k (by simp) (fun x hx => hall x (by simp [hx]))
          (by simp at hfuel ⊢; omega)]
      simp

theorem parseRowsF_serialize_trailingNl (rows : List (List (List Char))) :
    ∀ (ncols : Nat) (acc : List (List (List Char))) (fuel : Nat),
      rows ≠ [] →
      (∀ r ∈ rows, r.length = ncols ∧ r.getLast? ≠ some []) →
      0 < ncols →
      rows.length + 1 < fuel →
      parseRowsF fuel ncols acc ('\n' :: (serializeData rows ++ ['\n']))
        = RowsResult.fail
            (TableError.inconsistentRowLengths (acc.length + rows.length + 1) 0 ncols) := by
  induction rows with
  | nil => intro _ _ _ h; exact absurd rfl h
  | cons r t ih =>
    intro ncols acc fuel _ hall hpos hfuel
    obtain ⟨k, rfl⟩ : ∃ k, fuel = k + 1 := ⟨fuel - 1, by omega⟩
    have htrim : trimRow r = r := trimRow_of_getLast r (hall r (by simp)).2
    have hrl : r.length = ncols := (hall r (by simp)).1
    cases t with
    | nil =>
      have hrow : parseRow (serializeRow r ++ ['\n']) = some (r, ['\n']) := by
        have := parseRow_serialize r ['\n'] (Or.inr ⟨[], rfl⟩)
        rwa [htrim] at this
      have hstep1 : serializeData [r] ++ ['\n'] = serializeRow r ++ ['\n'] := rfl
      rw [hstep1, parseRowsF_step_ok k ncols acc '\n' _ r ['\n'] hrow hrl]
      obtain ⟨k2, rfl⟩ : ∃ k2, k = k2 + 1 := ⟨k - 1, by simp at hfuel; omega⟩
      rw [parseRowsF_step_fail k2 ncols (acc ++ [r]) '\n' [] [] [] parseRow_nil
        (by simpa using Nat.ne_of_lt hpos)]
      simp
    | cons s t2 =>
      have hrow : parseRow (serializeRow r ++ '\n' :: (serializeData (s :: t2) ++ ['\n']))
          = some (r, '\n' :: (serializeData (s :: t2) ++ ['\n'])) := by
        have := parseRow_serialize r ('\n' :: (serializeData (s :: t2) ++ ['\n']))
          (Or.inr ⟨_, rfl⟩)
        rwa [htrim] at this
      have hstep1 : serializeData (r :: s :: t2) ++ ['\n']
          = serializeRow r ++ '\n' :: (serializeData (s :: t2) ++ ['\n']) := by
        rw [show serializeData (r :: s :: t2)
              = serializeRow r ++ '\n' :: serializeData (s :: t2) from rfl]
        simp
      rw [hstep1, parseRowsF_step_ok k ncols acc '\n' _ r _ hrow hrl,
        ih ncols (acc ++ [r]) k (by simp) (fun x hx => hall x (by simp [hx])) hpos
          (by simp at hfuel ⊢; omega)]
      simp
      omega

theorem parseRowsF_ok_length (fuel : Nat) :
    ∀ (ncols : Nat) (acc : List (List (List Char))) (rest : List Char)
      (rows : List (List (List Char))),
      parseRowsF fuel ncols acc rest = RowsResult.ok rows →
      (∀ r ∈ acc, r.length = ncols) →
      ∀ r ∈ rows, r.length = ncols := by
  induction fuel with
  | zero =>
    intro ncols acc rest rows h
    simp [parseRowsF] at h
  | succ n ih =>
    intro ncols acc rest rows h hacc
    cases rest with
    | nil =>
      rw [parseRowsF_nil] at h
      cases h
      exact hacc
    | cons c rest1 =>
      cases hp : parseRow rest1 with
      | none =>
        simp [parseRowsF, hp] at h
      | some pr =>
        obtain ⟨row, rest2⟩ := pr
        by_cases hlen : row.length = ncols
        · rw [parseRowsF_step_ok n ncols acc c rest1 row rest2 hp hlen] at h
          refine ih ncols (acc ++ [row]) rest2 rows h ?_
          intro r hr
          rcases List.mem_append.mp hr with h1 | h1
          · exact hacc r h1
          · simp at h1; subst h1; exact hlen
        · rw [parseRowsF_step_fail n ncols acc c rest1 row rest2 hp hlen] at h
          cases h

/-! ## Lemmas about the shape-validation loop of the setter -/

theorem checkRows_none (rows : List (List (List Char))) :
    ∀ (ncols i : Nat), (∀ r ∈ rows, r.length = ncols) → checkRows ncols i rows = none := by
  induction rows with
  | nil => intro ncols i _; rfl
  | cons a t ih =>
    intro ncols i hall
    have ha : a.length = ncols := hall a (by simp)
    simp only [checkRows, if_neg (by omega : ¬a.length ≠ ncols)]
    exact ih ncols (i + 1) (fun r hr => hall r (by simp [hr]))

theorem checkRows_first (rows : List (List (List Char))) :
    ∀ (ncols i j : Nat) (r : List (List Char)),
      (∀ k, k < j → ∀ rr ∈ rows.drop k |>.head?, rr.length = ncols) →
      (rows.drop j).head? = some r →
      r.length ≠ ncols →
      checkRows ncols i rows
        = some (TableError.inconsistentRowLengths (i + j + 1) r.length ncols) := by
  induction rows with
  | nil =>
    intro ncols i j r _ hj
    simp at hj
  | cons a t ih =>
    intro ncols i j r hfirst hj hbad
    cases j with
    | zero =>
      simp at hj
      subst hj
      simp [checkRows, if_pos hbad]
    | succ j2 =>
      have ha : a.length = ncols := hfirst 0 (by omega) a (by simp)
      simp only [checkRows, if_neg (by omega : ¬a.length ≠ ncols)]
      have := ih ncols (i + 1) j2 r
        (fun k hk rr hrr => hfirst (k + 1) (by omega) rr (by simpa using hrr))
        (by simpa using hj) hbad
      rw [this]
      congr 2
      omega

/-! ## Store lemmas for the clone model -/

theorem listGetD_append_lt {α : Type} (l l2 : List α) (i : Nat) (d : α) (h : i < l.length) :
    (l ++ l2).getD i d = l.getD i d := by
  rw [List.getD_eq_getElem?_getD, List.getD_eq_getElem?_getD, List.getElem?_append, if_pos h]

theorem listGetD_append_offset {α : Type} (l l2 : List α) (k : Nat) (d : α) :
    (l ++ l2).getD (l.length + k) d = l2.getD k d := by
  simp [List.getD_eq_getElem?_getD,
    List.getElem?_append_right (by omega : l.length ≤ l.length + k)]

theorem listGetD_set_ne {α : Type} (l : List α) (i j : Nat) (v d : α) (h : i ≠ j) :
    (l.set i v).getD j d = l.getD j d := by
  rw [List.getD_eq_getElem?_getD, List.getD_eq_getElem?_getD, List.getElem?_set_ne h]

theorem map_getD_append_range {α : Type} (S cloned : List α) (d : α) :
    (List.range cloned.length).map (fun k => (S ++ cloned).getD (S.length + k) d) = cloned := by
  apply List.ext_getElem
  · simp
  · intro i h1 h2
    simp only [List.getElem_map, List.getElem_range]
    rw [listGetD_append_offset, List.getD_eq_getElem?_getD,
      List.getElem?_eq_getElem (by simpa using h1)]
    rfl

theorem getDataFrom_eq (content : List Char) (cols : List (List Char)) (rest : List Char)
    (h : parseRow content = some (cols, rest)) :
    getDataFrom content
      = (match parseRowsF (rest.length + 1) cols.length [] rest with
         | RowsResult.diverge => ParseResult.diverge
         | RowsResult.fail e => ParseResult.fail e
         | RowsResult.ok rows => ParseResult.ok cols rows) := by
  unfold getDataFrom
  rw [h]

/-! ## The claims -/

theorem any_comma_newline_split (t : List Char) :
    t.any (fun c => c == ',' || c == '\n') = (t.any (· == ',') || t.any (· == '\n')) := by
  induction t with
  | nil => rfl
  | cons c t ih =>
    simp only [List.any_cons, ih]
    cases c == ',' <;> cases c == '\n' <;> simp

theorem needsQuotes_eq (s : List Char) :
    (startsWithQuote s || containsCommaOrNewline s) = specNeedsQuotes s := by
  unfold containsCommaOrNewline specNeedsQuotes
  rw [any_comma_newline_split]
  cases startsWithQuote s <;> cases s.any (· == ',') <;> cases s.any (· == '\n') <;> simp

/-- C5: the per-field encoder wraps a field in double quotes exactly when it
contains a comma, contains a newline, or begins with a double quote (the
spec's wording, `specNeedsQuotes`), doubling every inner double quote, and
writes it verbatim otherwise; the four concrete examples of the spec,
including that parsing the text consisting of the single field `"""ab"`
yields the field value `"ab`. -/
theorem convertToproperStr_spec :
    (∀ s : List Char,
        convertToproperStr s
          = if specNeedsQuotes s then '"' :: (escapeQuotes s ++ ['"']) else s)
  ∧ convertToproperStr (String.toList "a,b") = String.toList "\"a,b\""
  ∧ convertToproperStr (String.toList "a\"b") = String.toList "a\"b"
  ∧ convertToproperStr (String.toList "\"ab") = String.toList "\"\"\"ab\""
  ∧ getDataFrom (String.toList "\"\"\"ab\"") = ParseResult.ok [String.toList "\"ab"] [] := by
  refine ⟨fun s => ?_, by decide, by decide, by decide, by decide⟩
  rw [convertToproperStr, needsQuotes_eq]

/-- C9: the empty text parses to no columns and no rows; the header-only
text `column1,column2,column3` parses to exactly those three columns and no
rows; and `toString` on a table with no data rows is exactly the encoded
header (nothing, in particular no newline, is appended). -/
theorem empty_table_scenarios :
    getDataFrom [] = ParseResult.ok [] []
  ∧ getDataFrom (String.toList "column1,column2,column3")
      = ParseResult.ok
          [String.toList "column1", String.toList "column2", String.toList "column3"] []
  ∧ (∀ cols : List (List Char), tableToString cols [] = serializeRow cols) := by
  refine ⟨by decide, by decide, fun cols => ?_⟩
  simp [tableToString]

/-- C4: the claim that parsing terminates on every input is right as a
specification and wrong of the code: on the text `"a"x` (a quoted field
whose closing quote is followed by a character that is neither a comma, a
newline, nor end of text) the `while(true)` loop of `parseRow` repeats
without advancing `index`, so no amount of fuel makes the embedded loop
produce a result: the source diverges instead of reporting an error. -/
theorem parseRow_diverges_on_bad_quote_terminator :
    (∀ (fuel : Nat) (acc : List (List Char)),
        parseRowF fuel acc (String.toList "\"a\"x") = none)
  ∧ getDataFrom (String.toList "\"a\"x") = ParseResult.diverge := by
  constructor
  · intro fuel
    induction fuel with
    | zero => intro _; rfl
    | succ n ih =>
      intro acc
      have hpc : parseColumn (String.toList "\"a\"x") = (['a'], ['x']) := by decide
      rw [parseRowF_stuck n acc _ ['a'] [] 'x' hpc (by decide) (by decide)]
      exact ih acc
  · decide

/-- C1 counterexample: with columns `["a"]` and the single row `[""]` (whose
length matches the column count), `parse(serialize(C, R))` does not yield
`(C, R)`: the serialized text is `a\n` and the row's empty last field is
dropped, so the row check fails with `InconsistentRowLengths` for row 1
(0 fields instead of 1). -/
theorem roundtrip_fails_on_empty_last_field :
    getDataFrom (tableToString [['a']] [[[]]])
        = ParseResult.fail (TableError.inconsistentRowLengths 1 0 1)
  ∧ getDataFrom (tableToString [['a']] [[[]]]) ≠ ParseResult.ok [['a']] [[[]]] := by
  decide

/-- C1 (amended): round-trip holds for every column sequence `C` and row
sequence `R` with matching row lengths, provided additionally that the last
column name is not the empty string and no row's last field is the empty
string (the parser drops a trailing field that decodes to the empty string,
so those datasets do not survive the trip); this covers both the `R = []`
and the `R ≠ []` branch of the claim. -/
theorem parse_serialize_roundtrip (C : List (List Char)) (R : List (List (List Char)))
    (hlen : ∀ r ∈ R, r.length = C.length)
    (hC : C.getLast? ≠ some [])
    (hR : ∀ r ∈ R, r.getLast? ≠ some []) :
    getDataFrom (tableToString C R) = ParseResult.ok C R := by
  by_cases hRnil : R = []
  · subst hRnil
    have hhead : parseRow (serializeRow C) = some (C, []) := by
      have := parseRow_serialize C [] (Or.inl rfl)
      rw [trimRow_of_getLast C hC] at this
      simpa using this
    rw [show tableToString C [] = serializeRow C from by simp [tableToString]]
    unfold getDataFrom
    rw [hhead]
    rfl
  · have hhead : parseRow (serializeRow C ++ '\n' :: serializeData R)
        = some (C, '\n' :: serializeData R) := by
      have := parseRow_serialize C ('\n' :: serializeData R) (Or.inr ⟨_, rfl⟩)
      rwa [trimRow_of_getLast C hC] at this
    have hrows : parseRowsF (('\n' :: serializeData R).length + 1) C.length []
        ('\n' :: serializeData R) = RowsResult.ok R := by
      have := parseRowsF_serialize R C.length [] (('\n' :: serializeData R).length + 1)
        hRnil (fun r hr => ⟨hlen r hr, hR r hr⟩)
        (by have := length_le_serializeData R; simp only [List.length_cons]; omega)
      simpa using this
    rw [show tableToString C R = serializeRow C ++ '\n' :: serializeData R from by
      simp [tableToString, hRnil]]
    rw [getDataFrom_eq _ C _ hhead, hrows]

/-- Witness for C1 at a concrete table. -/
theorem parse_serialize_roundtrip_witness :
    getDataFrom (tableToString [['a'], ['b']] [[['1'], ['2']], [['3'], ['4']]])
      = ParseResult.ok [['a'], ['b']] [[['1'], ['2']], [['3'], ['4']]] :=
  parse_serialize_roundtrip [['a'], ['b']] [[['1'], ['2']], [['3'], ['4']]]
    (by decide) (by decide) (by decide)

/-- C2 counterexample: the text `a\n1` parses to columns `["a"]` and the
single row `["1"]`, but the same text followed by a single final newline
does not parse to the same result — it fails with `InconsistentRowLengths`
for row 2 (0 fields instead of 1), because the final newline yields an
empty extra row that fails the length check. -/
theorem trailing_newline_changes_parse :
    getDataFrom (String.toList "a\n1") = ParseResult.ok [['a']] [[['1']]]
  ∧ getDataFrom (String.toList "a\n1" ++ ['\n'])
      = ParseResult.fail (TableError.inconsistentRowLengths 2 0 1) := by
  decide

/-- C2 (amended): a trailing newline is not harmless: for any serialized
table text with at least one column, a non-empty row set and no empty last
fields, appending a single final newline makes parsing fail with
`InconsistentRowLengths` for row `|R| + 1` (0 fields instead of `|C|`),
because the final empty line yields an extra empty row that fails the
length check. -/
theorem trailing_newline_extra_empty_row (C : List (List Char))
    (R : List (List (List Char)))
    (hlen : ∀ r ∈ R, r.length = C.length)
    (hC : C.getLast? ≠ some [])
    (hR : ∀ r ∈ R, r.getLast? ≠ some [])
    (hne : R ≠ [])
    (hCpos : 0 < C.length) :
    getDataFrom (tableToString C R ++ ['\n'])
      = ParseResult.fail (TableError.inconsistentRowLengths (R.length + 1) 0 C.length) := by
  have hassoc : tableToString C R ++ ['\n']
      = serializeRow C ++ '\n' :: (serializeData R ++ ['\n']) := by
    rw [show tableToString C R = serializeRow C ++ '\n' :: serializeData R from by
      simp [tableToString, hne]]
    simp
  have hhead : parseRow (serializeRow C ++ '\n' :: (serializeData R ++ ['\n']))
      = some (C, '\n' :: (serializeData R ++ ['\n'])) := by
    have := parseRow_serialize C ('\n' :: (serializeData R ++ ['\n'])) (Or.inr ⟨_, rfl⟩)
    rwa [trimRow_of_getLast C hC] at this
  have hrows : parseRowsF (('\n' :: (serializeData R ++ ['\n'])).length + 1) C.length []
      ('\n' :: (serializeData R ++ ['\n']))
        = RowsResult.fail (TableError.inconsistentRowLengths (R.length + 1) 0 C.length) := by
    have := parseRowsF_serialize_trailingNl R C.length []
      (('\n' :: (serializeData R ++ ['\n'])).length + 1) hne
      (fun r hr => ⟨hlen r hr, hR r hr⟩) hCpos
      (by have := length_le_serializeData R
          simp only [List.length_cons, List.length_append]; omega)
    simpa using this
  rw [hassoc]
  rw [getDataFrom_eq _ C _ hhead, hrows]

/-- Witness for C2 (amended) at a concrete table. -/
theorem trailing_newline_extra_empty_row_witness :
    getDataFrom (tableToString [['a']] [[['1']]] ++ ['\n'])
      = ParseResult.fail (TableError.inconsistentRowLengths 2 0 1) :=
  trailing_newline_extra_empty_row [['a']] [[['1']]]
    (by decide) (by decide) (by decide) (by decide) (by decide)

/-- C3 counterexample: the header text `a,b,` (first row ending with an
empty last field) parses to the column set `["a", "b"]` — the trailing
empty column name is dropped, not kept: the empty-trailing-field
suppression of `parseRow` applies to the header row as well, because
`getDataFrom` parses the header with the same `parseRow`. -/
theorem header_trailing_empty_dropped :
    getDataFrom (String.toList "a,b,") = ParseResult.ok [['a'], ['b']] []
  ∧ getDataFrom (String.toList "a,b,") ≠ ParseResult.ok [['a'], ['b'], []] [] := by
  decide

/-- C3 (amended): the suppression does apply to the header row: serializing
a column set whose last name is the empty string (with no data rows) and
parsing the result yields the column set without its last entry. -/
theorem header_empty_last_column_dropped (C : List (List Char))
    (hC : C.getLast? = some []) :
    getDataFrom (tableToString C []) = ParseResult.ok C.dropLast [] := by
  have hhead : parseRow (serializeRow C) = some (C.dropLast, []) := by
    have := parseRow_serialize C [] (Or.inl rfl)
    rw [show trimRow C = C.dropLast from by simp [trimRow, hC]] at this
    simpa using this
  rw [show tableToString C [] = serializeRow C from by simp [tableToString]]
  unfold getDataFrom
  rw [hhead]
  rfl

/-- Witness for C3 (amended) at the header `a,b,`. -/
theorem header_empty_last_column_dropped_witness :
    getDataFrom (tableToString [['a'], ['b'], []] []) = ParseResult.ok [['a'], ['b']] [] :=
  header_empty_last_column_dropped [['a'], ['b'], []] (by decide)

theorem checkRows_none_sound (rows : List (List (List Char))) :
    ∀ (ncols i : Nat), checkRows ncols i rows = none → ∀ r ∈ rows, r.length = ncols := by
  induction rows with
  | nil => intro ncols i _ r hr; simp at hr
  | cons a t ih =>
    intro ncols i h r hr
    by_cases ha : a.length = ncols
    · simp only [checkRows, if_neg (by omega : ¬a.length ≠ ncols)] at h
      rcases List.mem_cons.mp hr with h1 | h1
      · subst h1; exact ha
      · exact ih ncols (i + 1) h r h1
    · simp [checkRows, if_pos ha] at h

theorem getDataFrom_ok_length (content : List Char) (cols : List (List Char))
    (rows : List (List (List Char))) (h : getDataFrom content = ParseResult.ok cols rows) :
    ∀ r ∈ rows, r.length = cols.length := by
  unfold getDataFrom at h
  split at h
  · cases h
  · rename_i c rest hp
    split at h
    · cases h
    · cases h
    · rename_i rows2 hrr
      cases h
      exact parseRowsF_ok_length (rest.length + 1) cols.length [] rest rows hrr
        (by intro r hr; simp at hr)

/-- C6: a `ShapeError` (`InconsistentRowLengths`) is atomic: when the `data`
setter rejects, the table keeps its previous columns and rows; when it
accepts, all rows are replaced at once; when the parse of file content is
rejected (or diverges), the backing fields are untouched; when it succeeds,
columns and rows are adopted wholesale — no partially populated row set is
ever stored. -/
theorem shape_error_atomic :
    (∀ (t : Table) (rows : List (List (List Char))),
        (setData t rows).1 ≠ none → (setData t rows).2 = t)
  ∧ (∀ (t : Table) (rows : List (List (List Char))),
        (setData t rows).1 = none
          → (setData t rows).2 = { columns := t.columns, data := rows })
  ∧ (∀ (t : Table) (content : List Char),
        (tableGetDataFrom t content).1 ≠ OpResult.success →
        (tableGetDataFrom t content).2 = t)
  ∧ (∀ (t : Table) (content : List Char) (cols : List (List Char))
        (rows : List (List (List Char))),
        getDataFrom content = ParseResult.ok cols rows →
        tableGetDataFrom t content = (OpResult.success, { columns := cols, data := rows })) := by
  refine ⟨fun t rows => ?_, fun t rows => ?_, fun t content => ?_,
    fun t content cols rows h => ?_⟩
  · unfold setData
    cases hc : checkRows t.columns.length 0 rows with
    | some e2 => intro _; rfl
    | none => intro h; simp at h
  · unfold setData
    cases hc : checkRows t.columns.length 0 rows with
    | some e2 => intro h; simp at h
    | none => intro _; rfl
  · unfold tableGetDataFrom
    cases hg : getDataFrom content with
    | diverge => intro _; rfl
    | fail e => intro _; rfl
    | ok cols rows => intro h; exact absurd rfl h
  · unfold tableGetDataFrom
    rw [h]

/-- Witness for C6: rejecting the row replacement (row of length 0 against
one column) leaves the concrete table unchanged. -/
theorem shape_error_atomic_witness :
    (setData { columns := [['a']], data := [[['x']]] } [[]]).2
      = { columns := [['a']], data := [[['x']]] } :=
  shape_error_atomic.1 { columns := [['a']], data := [[['x']]] } [[]] (by decide)

/-- C7: the shape validation rejects exactly when some row's length differs
from the column count; the error identifies the first offending row (its
1-based index, the row's length, the column count), both for the `data`
setter and for the constructor from columns and data; and parsing the text
`a,b\n1,2\n3` fails with `InconsistentRowLengths` for data row 2 (1 field
instead of 2). -/
theorem shape_error_details :
    (∀ (t : Table) (rows : List (List (List Char))),
        (∀ r ∈ rows, r.length = t.columns.length) →
        setData t rows = (none, { columns := t.columns, data := rows }))
  ∧ (∀ (t : Table) (rows : List (List (List Char))) (j : Nat) (r : List (List Char)),
        (∀ k, k < j → ∀ rr ∈ (rows.drop k).head?, rr.length = t.columns.length) →
        (rows.drop j).head? = some r →
        r.length ≠ t.columns.length →
        setData t rows
          = (some (TableError.inconsistentRowLengths (j + 1) r.length t.columns.length), t))
  ∧ (∀ (cols : List (List Char)) (rows : List (List (List Char))) (j : Nat)
        (r : List (List Char)),
        (∀ k, k < j → ∀ rr ∈ (rows.drop k).head?, rr.length = cols.length) →
        (rows.drop j).head? = some r →
        r.length ≠ cols.length →
        tableNew cols rows
          = Except.error (TableError.inconsistentRowLengths (j + 1) r.length cols.length))
  ∧ getDataFrom (String.toList "a,b\n1,2\n3")
      = ParseResult.fail (TableError.inconsistentRowLengths 2 1 2) := by
  refine ⟨fun t rows hall => ?_, fun t rows j r hfirst hj hbad => ?_,
    fun cols rows j r hfirst hj hbad => ?_, by decide⟩
  · unfold setData
    rw [checkRows_none rows t.columns.length 0 hall]
  · unfold setData
    rw [checkRows_first rows t.columns.length 0 j r hfirst hj hbad]
    simp
  · unfold tableNew setData
    rw [checkRows_first rows cols.length 0 j r hfirst hj hbad]
    simp

/-- Witness for C7: constructing with 3 columns and a first row of length 1
fails with row number 1 and lengths 1 and 3. -/
theorem shape_error_details_witness :
    tableNew [['a'], ['b'], ['c']] [[['x']]]
      = Except.error (TableError.inconsistentRowLengths 1 1 3) :=
  shape_error_details.2.2.1 [['a'], ['b'], ['c']] [[['x']]] 0 [['x']]
    (by intro k hk; omega) (by decide) (by decide)

/-- C8: after every successful operation — construction from columns and
data, bulk row replacement, and adoption of parsed file content — every
stored row's length equals the stored column count. -/
theorem shape_invariant :
    (∀ (cols : List (List Char)) (rows : List (List (List Char))) (t : Table),
        tableNew cols rows = Except.ok t → ∀ r ∈ t.data, r.length = t.columns.length)
  ∧ (∀ (t : Table) (rows : List (List (List Char))),
        (setData t rows).1 = none →
        ∀ r ∈ (setData t rows).2.data, r.length = (setData t rows).2.columns.length)
  ∧ (∀ (t : Table) (content : List Char),
        (tableGetDataFrom t content).1 = OpResult.success →
        ∀ r ∈ (tableGetDataFrom t content).2.data,
          r.length = (tableGetDataFrom t content).2.columns.length) := by
  refine ⟨fun cols rows t => ?_, fun t rows => ?_, fun t content => ?_⟩
  · unfold tableNew setData
    cases hc : checkRows cols.length 0 rows with
    | some e => intro h; cases h
    | none =>
      intro h
      cases h
      exact checkRows_none_sound rows cols.length 0 hc
  · unfold setData
    cases hc : checkRows t.columns.length 0 rows with
    | some e => intro h; simp at h
    | none => intro _; exact checkRows_none_sound rows t.columns.length 0 hc
  · unfold tableGetDataFrom
    cases hg : getDataFrom content with
    | diverge => intro h; simp at h
    | fail e => intro h; simp at h
    | ok cols rows => intro _; exact getDataFrom_ok_length content cols rows hg

/-- Witness for C8: the invariant at a concrete successful parse-adoption. -/
theorem shape_invariant_witness :
    ∀ r ∈ (tableGetDataFrom { columns := [], data := [] } (String.toList "a\n1")).2.data,
      r.length = (tableGetDataFrom { columns := [], data := [] }
        (String.toList "a\n1")).2.columns.length :=
  shape_invariant.2.2 { columns := [], data := [] } (String.toList "a\n1") (by decide)
/-- C10: the `columns` and `data` getters return `cloneArray` copies: the
copy reads back as the internal value, and mutating the returned cell — the
copied column array, the copied row array, or any nested row cell of the
copied row array — changes neither the table's column set nor its row data
as read through the private backing references. -/
theorem cloneArray_defensive (st : Store) (t : TableRefs) (hwf : WfRefs st t)
    (v : List (List Char)) (w : List Nat) (c : Nat)
    (hc : c ∈ (cloneRowArray st t.dataRef).1.rowCells.getD (cloneRowArray st t.dataRef).2 []) :
    (cloneStrArray st t.columnsRef).1.strCells.getD (cloneStrArray st t.columnsRef).2 []
        = readColumns st t
  ∧ readColumns
      (setStrCell (cloneStrArray st t.columnsRef).1 (cloneStrArray st t.columnsRef).2 v) t
        = readColumns st t
  ∧ readData
      (setStrCell (cloneStrArray st t.columnsRef).1 (cloneStrArray st t.columnsRef).2 v) t
        = readData st t
  ∧ ((cloneRowArray st t.dataRef).1.rowCells.getD (cloneRowArray st t.dataRef).2 []).map
      (fun rr => (cloneRowArray st t.dataRef).1.strCells.getD rr [])
        = readData st t
  ∧ readColumns
      (setRowCell (cloneRowArray st t.dataRef).1 (cloneRowArray st t.dataRef).2 w) t
        = readColumns st t
  ∧ readData
      (setRowCell (cloneRowArray st t.dataRef).1 (cloneRowArray st t.dataRef).2 w) t
        = readData st t
  ∧ readColumns (setStrCell (cloneRowArray st t.dataRef).1 c v) t = readColumns st t
  ∧ readData (setStrCell (cloneRowArray st t.dataRef).1 c v) t = readData st t := by
  obtain ⟨hcr, hdr, hrr⟩ := hwf
  have hnewRefs : (cloneRowArray st t.dataRef).1.rowCells.getD (cloneRowArray st t.dataRef).2 []
      = (List.range (st.rowCells.getD t.dataRef []).length).map (· + st.strCells.length) := by
    show (st.rowCells ++ [_]).getD st.rowCells.length [] = _
    have := listGetD_append_offset st.rowCells
      [(List.range (st.rowCells.getD t.dataRef []).length).map (· + st.strCells.length)] 0
      ([] : List Nat)
    rw [Nat.add_zero] at this
    rw [this]
    rfl
  have hcge : st.strCells.length ≤ c := by
    rw [hnewRefs] at hc
    obtain ⟨k, _, hk⟩ := List.mem_map.mp hc
    omega
  refine ⟨?_, ?_, ?_, ?_, ?_, ?_, ?_, ?_⟩
  · show (st.strCells ++ [st.strCells.getD t.columnsRef []]).getD st.strCells.length []
        = readColumns st t
    have := listGetD_append_offset st.strCells [st.strCells.getD t.columnsRef []] 0
      ([] : List (List Char))
    rw [Nat.add_zero] at this
    rw [this]
    rfl
  · show ((st.strCells ++ [st.strCells.getD t.columnsRef []]).set st.strCells.length v).getD
        t.columnsRef [] = readColumns st t
    rw [listGetD_set_ne _ _ _ _ _ (by omega : st.strCells.length ≠ t.columnsRef),
      listGetD_append_lt _ _ _ _ hcr]
    rfl
  · show (st.rowCells.getD t.dataRef []).map
        (fun rr => ((st.strCells ++ [st.strCells.getD t.columnsRef []]).set
          st.strCells.length v).getD rr []) = readData st t
    apply List.map_congr_left
    intro rr hmem
    have hlt := hrr rr hmem
    rw [listGetD_set_ne _ _ _ _ _ (by omega : st.strCells.length ≠ rr),
      listGetD_append_lt _ _ _ _ hlt]
  · rw [hnewRefs]
    show (List.map (· + st.strCells.length) _).map
        (fun rr => (st.strCells ++ (st.rowCells.getD t.dataRef []).map
          (fun rr2 => st.strCells.getD rr2 [])).getD rr []) = _
    rw [List.map_map]
    have hlen : (st.rowCells.getD t.dataRef []).length
        = ((st.rowCells.getD t.dataRef []).map (fun rr2 => st.strCells.getD rr2 [])).length := by
      rw [List.length_map]
    rw [show (List.range (st.rowCells.getD t.dataRef []).length)
        = (List.range ((st.rowCells.getD t.dataRef []).map
            (fun rr2 => st.strCells.getD rr2 [])).length) from by rw [← hlen]]
    have hcomm : ∀ k, ((fun rr => (st.strCells ++ (st.rowCells.getD t.dataRef []).map
          (fun rr2 => st.strCells.getD rr2 [])).getD rr []) ∘ (· + st.strCells.length)) k
        = (fun k2 => (st.strCells ++ (st.rowCells.getD t.dataRef []).map
            (fun rr2 => st.strCells.getD rr2 [])).getD (st.strCells.length + k2) []) k := by
      intro k
      simp [Nat.add_comm]
    rw [List.map_congr_left (fun k _ => hcomm k),
      map_getD_append_range st.strCells
        ((st.rowCells.getD t.dataRef []).map (fun rr2 => st.strCells.getD rr2 [])) []]
    rfl
  · show (st.strCells ++ (st.rowCells.getD t.dataRef []).map
        (fun rr2 => st.strCells.getD rr2 [])).getD t.columnsRef [] = readColumns st t
    rw [listGetD_append_lt _ _ _ _ hcr]
    rfl
  · show (((st.rowCells ++ [_]).set st.rowCells.length w).getD t.dataRef []).map
        (fun rr => (st.strCells ++ (st.rowCells.getD t.dataRef []).map
          (fun rr2 => st.strCells.getD rr2 [])).getD rr []) = readData st t
    rw [listGetD_set_ne _ _ _ _ _ (by omega : st.rowCells.length ≠ t.dataRef),
      listGetD_append_lt _ _ _ _ hdr]
    apply List.map_congr_left
    intro rr hmem
    have hlt := hrr rr hmem
    rw [listGetD_append_lt _ _ _ _ hlt]
  · show (((st.strCells ++ _).set c v).getD t.columnsRef []) = readColumns st t
    rw [listGetD_set_ne _ _ _ _ _ (by omega : c ≠ t.columnsRef),
      listGetD_append_lt _ _ _ _ hcr]
    rfl
  · show ((st.rowCells ++ [_]).getD t.dataRef []).map
        (fun rr => ((st.strCells ++ (st.rowCells.getD t.dataRef []).map
          (fun rr2 => st.strCells.getD rr2 [])).set c v).getD rr []) = readData st t
    rw [listGetD_append_lt _ _ _ _ hdr]
    apply List.map_congr_left
    intro rr hmem
    have hlt := hrr rr hmem
    rw [listGetD_set_ne _ _ _ _ _ (by omega : c ≠ rr),
      listGetD_append_lt _ _ _ _ hlt]

/-- Witness for C10 at a concrete two-cell store. -/
theorem cloneArray_defensive_witness :
    (cloneStrArray (Store.mk [[['a']], [['1']]] [[1]]) 0).1.strCells.getD
        (cloneStrArray (Store.mk [[['a']], [['1']]] [[1]]) 0).2 []
      = readColumns (Store.mk [[['a']], [['1']]] [[1]]) (TableRefs.mk 0 0)
  ∧ readColumns
      (setStrCell (cloneStrArray (Store.mk [[['a']], [['1']]] [[1]]) 0).1
        (cloneStrArray (Store.mk [[['a']], [['1']]] [[1]]) 0).2 [['z']]) (TableRefs.mk 0 0)
      = readColumns (Store.mk [[['a']], [['1']]] [[1]]) (TableRefs.mk 0 0)
  ∧ readData
      (setStrCell (cloneStrArray (Store.mk [[['a']], [['1']]] [[1]]) 0).1
        (cloneStrArray (Store.mk [[['a']], [['1']]] [[1]]) 0).2 [['z']]) (TableRefs.mk 0 0)
      = readData (Store.mk [[['a']], [['1']]] [[1]]) (TableRefs.mk 0 0)
  ∧ ((cloneRowArray (Store.mk [[['a']], [['1']]] [[1]]) 0).1.rowCells.getD
        (cloneRowArray (Store.mk [[['a']], [['1']]] [[1]]) 0).2 []).map
      (fun rr => (cloneRowArray (Store.mk [[['a']], [['1']]] [[1]]) 0).1.strCells.getD rr [])
      = readData (Store.mk [[['a']], [['1']]] [[1]]) (TableRefs.mk 0 0)
  ∧ readColumns
      (setRowCell (cloneRowArray (Store.mk [[['a']], [['1']]] [[1]]) 0).1
        (cloneRowArray (Store.mk [[['a']], [['1']]] [[1]]) 0).2 [0, 1]) (TableRefs.mk 0 0)
      = readColumns (Store.mk [[['a']], [['1']]] [[1]]) (TableRefs.mk 0 0)
  ∧ readData
      (setRowCell (cloneRowArray (Store.mk [[['a']], [['1']]] [[1]]) 0).1
        (cloneRowArray (Store.mk [[['a']], [['1']]] [[1]]) 0).2 [0, 1]) (TableRefs.mk 0 0)
      = readData (Store.mk [[['a']], [['1']]] [[1]]) (TableRefs.mk 0 0)
  ∧ readColumns (setStrCell (cloneRowArray (Store.mk [[['a']], [['1']]] [[1]]) 0).1 2 [['z']])
      (TableRefs.mk 0 0)
      = readColumns (Store.mk [[['a']], [['1']]] [[1]]) (TableRefs.mk 0 0)
  ∧ readData (setStrCell (cloneRowArray (Store.mk [[['a']], [['1']]] [[1]]) 0).1 2 [['z']])
      (TableRefs.mk 0 0)
      = readData (Store.mk [[['a']], [['1']]] [[1]]) (TableRefs.mk 0 0) :=
  cloneArray_defensive (Store.mk [[['a']], [['1']]] [[1]]) (TableRefs.mk 0 0)
    (by decide) [['z']] [0, 1] 2 (by decide)

end TableTs
